import Mathlib

/-!
Shallow embedding of the core logic of the Control-Operaciones-Binance app:
the currency-string parser (`parseCurrencyValue`), the execution-totals
aggregator (the `totals` memo of `ExecutionProcessor`), the split-generation
algorithm (the multi-part branch of `handleGenerate`), and the order-mutation
handlers (`handleSaveOperation`, `handleValueChange`, `handleDeleteItem`,
`handlePaidChange`).  JavaScript numbers are modelled as exact rationals (`ℚ`)
for parsed amounts and as integers (`ℤ`) for the split values, which the code
keeps integral by construction.
-/

set_option maxRecDepth 100000

namespace ControlOps

/-- Locale tag, from `LanguageContext.tsx`: `type Language = 'es' | 'pt' | 'en'`. -/
inductive Language where
  | es
  | pt
  | en
deriving DecidableEq

/-- ASCII whitespace recognised by JavaScript's `\s` class and by `String.trim`
(the model restricts to the ASCII subset; non-ASCII space code points do not
occur in the inputs considered here). -/
def isJsSpace (c : Char) : Bool :=
  c = ' ' || c = '\t' || c = '\n' || c = '\r' || c = '\x0b' || c = '\x0c'

/-- Uppercase ASCII letter, the `[A-Z]` character class. -/
def isUpperAZ (c : Char) : Bool :=
  'A' ≤ c && c ≤ 'Z'

/-- Line terminators that JavaScript's `.` (dot) regex atom refuses to match. -/
def isLineTerm (c : Char) : Bool :=
  c = '\n' || c = '\r' || c = Char.ofNat 0x2028 || c = Char.ofNat 0x2029

/-- `valueStr.split('/')[0]`: the characters before the first `'/'`. -/
def beforeSlash (s : List Char) : List Char :=
  s.takeWhile (· ≠ '/')

/-- `String.prototype.trim()`: drop leading and trailing whitespace. -/
def trimJs (s : List Char) : List Char :=
  ((s.dropWhile isJsSpace).reverse.dropWhile isJsSpace).reverse

/-- Semantics of matching `/^(.*?)(?:\s*([A-Z]{3,}))?$/` against `s`.
Returns `some (group1, group2?)` on a successful match and `none` when the
regex fails to match.  Because group 1 is lazy, the engine takes the earliest
split point at which the whole suffix is optional whitespace followed by three
or more uppercase letters running to the end of the string; that suffix run is
the maximal trailing `[A-Z]` run together with the maximal whitespace run
before it.  The `.` atom does not match line terminators, so a line terminator
that would have to sit inside group 1 makes the whole match fail. -/
def matchCurrency (s : List Char) : Option (List Char × Option (List Char)) :=
  let u := (s.reverse.takeWhile isUpperAZ).reverse
  if 3 ≤ u.length then
    let rest := s.take (s.length - u.length)
    let w := rest.reverse.takeWhile isJsSpace
    let g1 := rest.take (rest.length - w.length)
    if g1.any isLineTerm then none else some (g1, some u)
  else
    if s.any isLineTerm then none else some (s, none)

/-- Digit run to a natural number, most significant first. -/
def digitsNat (ds : List Char) : ℕ :=
  ds.foldl (fun a c => 10 * a + (c.toNat - '0'.toNat)) 0

/-- JavaScript `parseFloat` restricted to plain decimal notation: skip leading
whitespace, an optional sign, then digits with at most one `'.'`, stopping at
the first character that cannot extend the number; `none` models `NaN` (no
digit consumed).  The value is returned in exact decimal form as
`(negative?, mantissa digits, number of fraction digits)`, so that
`sign * mantissa / 10 ^ scale` is the parsed number; the model is exact where
the JavaScript double rounds.  Exponent notation and `Infinity` are not
modelled — they cannot arise from the separator-normalised number strings fed
to it here. -/
def parseFloatParts (s : List Char) : Option (Bool × ℕ × ℕ) :=
  let s1 := s.dropWhile isJsSpace
  let signRest : Bool × List Char :=
    match s1 with
    | '-' :: t => (true, t)
    | '+' :: t => (false, t)
    | t => (false, t)
  let s2 := signRest.2
  let intPart := s2.takeWhile (·.isDigit)
  let s3 := s2.drop intPart.length
  let fracPart : List Char :=
    match s3 with
    | '.' :: t => t.takeWhile (·.isDigit)
    | _ => []
  if intPart.isEmpty && fracPart.isEmpty then none
  else some (signRest.1, digitsNat (intPart ++ fracPart), fracPart.length)

/-- The rational value of a `parseFloatParts` result, with `none` (`NaN`)
already collapsed to `0` as in `isNaN(amount) ? 0 : amount`. -/
def ratOfParts : Option (Bool × ℕ × ℕ) → ℚ
  | none => 0
  | some (sg, m, k) => (cond sg (-1) 1) * (m : ℚ) / 10 ^ k

/-- Remove every occurrence of `c` — `str.replace(new RegExp("\\" + sep, 'g'), '')`. -/
def removeAll (c : Char) (s : List Char) : List Char :=
  s.filter (· ≠ c)

/-- Replace the first occurrence of `c` by `r` —
`str.replace(sep, '.')` with a string pattern replaces only the first hit. -/
def replaceFirst (c r : Char) : List Char → List Char
  | [] => []
  | x :: t => if x = c then r :: t else x :: replaceFirst c r t

/-- Thousands separator chosen per locale in `parseCurrencyValue`. -/
def sepThousands : Language → Char
  | .en => ','
  | _ => '.'

/-- Decimal separator chosen per locale in `parseCurrencyValue`. -/
def sepDecimal : Language → Char
  | .en => '.'
  | _ => ','

/-- Result type of `parseCurrencyValue`. -/
structure ParsedCurrency where
  amount : ℚ
  currency : Option String
deriving DecidableEq

/-- The part of `parseCurrencyValue` from the regex match on the cleaned
string onwards: separate number part and currency, normalise the separators,
parse the number. -/
def parseCleaned (cleaned : List Char) (language : Language) :
    Option (Bool × ℕ × ℕ) × Option String :=
  match matchCurrency cleaned with
  | none => (none, none)
  | some (g1, currency) =>
    let numberPart := trimJs g1
    if numberPart.isEmpty then (none, none)
    else
      let np1 := removeAll (sepThousands language) numberPart
      let np2 := replaceFirst (sepDecimal language) '.' np1
      (parseFloatParts np2, currency.map List.asString)

/-- Control flow of `parseCurrencyValue(valueStr, language)` with the parsed
amount kept in the exact decimal form of `parseFloatParts`.  `none` as input
models the `undefined` argument; the JavaScript falsiness test `!valueStr`
also catches the empty string. -/
def parseCurrencyRaw (valueStr : Option String) (language : Language) :
    Option (Bool × ℕ × ℕ) × Option String :=
  match valueStr with
  | none => (none, none)
  | some str =>
    if str.toList.isEmpty then (none, none)
    else parseCleaned (trimJs (beforeSlash str.toList)) language

/-- Embedding of `parseCurrencyValue(valueStr, language)`:
`return { amount: isNaN(amount) ? 0 : amount, currency }`. -/
def parseCurrencyValue (valueStr : Option String) (language : Language) : ParsedCurrency :=
  ⟨ratOfParts (parseCurrencyRaw valueStr language).1, (parseCurrencyRaw valueStr language).2⟩

/-! ## Aggregator: the `totals` memo of `ExecutionProcessor` -/

/-- One extracted execution record (`interface ExtractedInfo`); every field is
a locale-formatted string.  Fields are optional at use sites
(`parseCurrencyValue` takes `string | undefined`), so they are modelled as
`Option String`. -/
structure ExtractedInfo where
  orderNumber : Option String := none
  type : Option String := none
  filledQuantity : Option String := none
  icebergValue : Option String := none
  averagePrice : Option String := none
  conditions : Option String := none
  fee : Option String := none
  total : Option String := none
  creationDate : Option String := none
  updateDate : Option String := none
deriving DecidableEq

/-- `interface OrderTotals`.  The fee and cost maps are insertion-ordered
association lists, modelling the JavaScript `Map`. -/
structure OrderTotals where
  totalQuantity : ℚ
  averagePrice : ℚ
  totalFees : List (String × ℚ)
  totalCost : List (String × ℚ)
deriving DecidableEq

/-- `Map.get`: the value stored at `k`, if any. -/
def mapGet (m : List (String × ℚ)) (k : String) : Option ℚ :=
  (m.find? (·.1 = k)).map (·.2)

/-- `Map.set`: update the entry for `k` in place, or append a new one. -/
def mapSet (m : List (String × ℚ)) (k : String) (v : ℚ) : List (String × ℚ) :=
  match m with
  | [] => [(k, v)]
  | (k', v') :: t => if k' = k then (k, v) :: t else (k', v') :: mapSet t k v

/-- Accumulator of the `for (const item of extractedData)` loop. -/
structure TotalsAcc where
  quantity : ℚ
  fees : List (String × ℚ)
  costs : List (String × ℚ)

/-- One iteration of the aggregation loop: add the parsed `filledQuantity`,
and accumulate `fee` and `total` into their per-currency buckets, skipping
amounts whose parsed currency is absent. -/
def totalsStep (language : Language) (acc : TotalsAcc) (item : ExtractedInfo) : TotalsAcc :=
  let q := parseCurrencyValue item.filledQuantity language
  let acc1 : TotalsAcc := { acc with quantity := acc.quantity + q.amount }
  let f := parseCurrencyValue item.fee language
  let acc2 : TotalsAcc :=
    match f.currency with
    | some c => { acc1 with fees := mapSet acc1.fees c ((mapGet acc1.fees c).getD 0 + f.amount) }
    | none => acc1
  let t := parseCurrencyValue item.total language
  match t.currency with
  | some c => { acc2 with costs := mapSet acc2.costs c ((mapGet acc2.costs c).getD 0 + t.amount) }
  | none => acc2

/-- Embedding of the `totals` `useMemo` of `ExecutionProcessor`: `none` models
the `null` returned when `extractedData` is missing or empty. -/
def totals (extractedData : List ExtractedInfo) (language : Language) : Option OrderTotals :=
  if extractedData.isEmpty then none
  else
    let td := extractedData.foldl (totalsStep language) ⟨0, [], []⟩
    let mainTotalCost := (mapGet td.costs "BRL").getD 0
    let averagePrice := if 0 < td.quantity then mainTotalCost / td.quantity else 0
    some ⟨td.quantity, averagePrice, td.fees, td.costs⟩

/-! ## Split generation: the multi-part branch of `handleGenerate` -/

/-- `numeroDeValores = Math.ceil(valorDeEntrada / maxPix)` in exact natural
arithmetic: for `maxPix > 0` this is the ceiling of `total / maxPix`. -/
def nParts (total maxPix : ℕ) : ℕ :=
  (total + maxPix - 1) / maxPix

/-- The initial even distribution: `n` copies of `base = total / n` with the
first `total % n` of them incremented by one. -/
def initialValues (total n : ℕ) : List ℤ :=
  List.replicate (total % n) ((total / n : ℕ) + 1 : ℤ) ++
    List.replicate (n - total % n) ((total / n : ℕ) : ℤ)

/-- The scan `for (let i = 1; i < values.length; i++)` of the correction loop:
the first index `i ≥ 1` with `values[i] <= values[i-1]`, if any. -/
def findSlack : List ℤ → Option ℕ
  | [] => none
  | [_] => none
  | a :: b :: t =>
    if b ≤ a then some 1
    else (findSlack (b :: t)).map (· + 1)

/-- One pass of the uniqueness-correction loop: sort ascending, then on the
first non-increasing adjacent pair increment the second element and decrement
the final (largest) element.  The JavaScript sort is in place; only the value
sequence matters here, so any ascending sort is a faithful model. -/
def fixOnce (v : List ℤ) : List ℤ :=
  let s := List.insertionSort (· ≤ ·) v
  match findSlack s with
  | none => s
  | some i =>
    let s1 := s.set i (s.getD i 0 + 1)
    s1.set (s.length - 1) (s1.getD (s.length - 1) 0 - 1)

/-- The bounded correction loop
`while (new Set(values).size < values.length && attempts < 1000)`; the fuel
argument is the remaining number of attempts. -/
def fixLoop : ℕ → List ℤ → List ℤ
  | 0, v => v
  | k + 1, v => if v.Nodup then v else fixLoop k (fixOnce v)

/-- The value sequence computed by `handleGenerate` before the final shuffle:
the single-part short cut, or the even split followed by the correction loop.
The empty list models the aborted generation of the `numeroDeValores <= 0`
error branch, which cannot occur for positive inputs. -/
def generateValues (total maxPix : ℕ) : List ℤ :=
  let n := nParts total maxPix
  if n = 0 then []
  else if n = 1 then [(total : ℤ)]
  else fixLoop 1000 (initialValues total n)

/-- Swap the entries at positions `i` and `j`,
`[values[i], values[j]] = [values[j], values[i]]`. -/
def listSwap (l : List α) (i j : ℕ) : List α :=
  match l[i]?, l[j]? with
  | some a, some b => (l.set i b).set j a
  | _, _ => l

/-- The Fisher-Yates loop `for (let i = values.length - 1; i > 0; i--)`.
Each step consumes one entry of `rand`; `Math.floor(Math.random() * (i + 1))`
is modelled by reducing the supplied number modulo `i + 1`, which ranges over
exactly the same set `0 .. i`. -/
def fyAux : List ℕ → ℕ → List α → List α
  | _, 0, v => v
  | rand, i + 1, v =>
    let j := rand.headD 0 % (i + 2)
    fyAux rand.tail i (listSwap v (i + 1) j)

/-- The final shuffle of `handleGenerate`, parameterised by the stream of
random draws. -/
def fisherYates (rand : List ℕ) (v : List α) : List α :=
  fyAux rand (v.length - 1) v

/-- The complete value sequence produced by the multi-part generation:
even split, bounded uniqueness correction, final shuffle. -/
def splitValues (total maxPix : ℕ) (rand : List ℕ) : List ℤ :=
  fisherYates rand (generateValues total maxPix)

/-! ## Order lifecycle: the persisted-order branches of the item handlers -/

/-- `interface GeneratedItem`. -/
structure GeneratedItem where
  id : String
  value : ℤ
  linkUrl : String
  isPaid : Bool
deriving DecidableEq

/-- `status: 'pendiente' | 'pagado'`. -/
inductive OrderStatus where
  | pendiente
  | pagado
deriving DecidableEq

/-- `interface Order` (the fields the handlers below touch). -/
structure Order where
  id : String
  totalAmount : ℤ
  status : OrderStatus
  createdAt : String
  links : List GeneratedItem
deriving DecidableEq

/-- `links.reduce((sum, item) => sum + item.value, 0)`. -/
def linksTotal (links : List GeneratedItem) : ℤ :=
  (links.map (·.value)).sum

/-- `handleSaveOperation`: build the new order from the generated links;
`none` models the early return when the purchase-order code is absent or no
links were generated. -/
def saveOperation (purchaseOrderCode : String) (createdAt : String)
    (generatedLinks : List GeneratedItem) : Option Order :=
  if purchaseOrderCode.isEmpty || generatedLinks.isEmpty then none
  else
    some
      { id := purchaseOrderCode
        totalAmount := linksTotal generatedLinks
        status := .pendiente
        createdAt := createdAt
        links := generatedLinks }

/-- `handleValueChange`, persisted-order branch: rewrite the item value, then
recompute the total and store both. -/
def valueChange (itemId : String) (value : ℤ) (o : Order) : Order :=
  let newLinks := o.links.map fun l => if l.id = itemId then { l with value := value } else l
  { o with links := newLinks, totalAmount := linksTotal newLinks }

/-- `handleDeleteItem`, persisted-order branch: drop the item; when no links
remain the whole order is deleted (`none`), otherwise links and recomputed
total are stored. -/
def deleteItem (itemId : String) (o : Order) : Option Order :=
  let updatedLinks := o.links.filter fun item => item.id ≠ itemId
  if updatedLinks.isEmpty then none
  else some { o with links := updatedLinks, totalAmount := linksTotal updatedLinks }

/-- `handlePaidChange`, persisted-order branch: flip the paid flag of one item
and rederive the order status; values and `totalAmount` are not touched. -/
def paidChange (itemId : String) (isPaid : Bool) (o : Order) : Order :=
  let updatedLinks := o.links.map fun l => if l.id = itemId then { l with isPaid := isPaid } else l
  { o with
    links := updatedLinks
    status := if updatedLinks.all (·.isPaid) then .pagado else .pendiente }

/-- The invariant of claim C10: the stored total is the sum of the remaining
link values. -/
def totalInv (o : Order) : Prop :=
  o.totalAmount = linksTotal o.links

instance (o : Order) : Decidable (totalInv o) := by
  unfold totalInv; infer_instance

/-! ## Claims about the parser and the aggregator -/

theorem parseCleaned_nil (language : Language) : parseCleaned [] language = (none, none) := rfl

theorem beforeSlash_append_slash (s t : List Char) (h : '/' ∉ s) :
    beforeSlash (s ++ '/' :: t) = s := by
  unfold beforeSlash
  rw [List.takeWhile_append_of_pos]
  · simp
  · intro a ha
    simp only [ne_eq, decide_eq_true_eq]
    exact fun e => h (e ▸ ha)

theorem beforeSlash_no_slash (s : List Char) (h : '/' ∉ s) : beforeSlash s = s := by
  unfold beforeSlash
  rw [List.takeWhile_eq_self_iff.mpr]
  intro x hx
  simp only [ne_eq, decide_eq_true_eq]
  exact fun e => h (e ▸ hx)

theorem parseRaw_slash_prefix (s t : String) (language : Language) (h : '/' ∉ s.toList) :
    parseCurrencyRaw (some (s ++ "/" ++ t)) language = parseCurrencyRaw (some s) language := by
  have hdata : (s ++ "/" ++ t).toList = s.toList ++ '/' :: t.toList := by
    simp [String.toList, String.data_append]
  simp only [parseCurrencyRaw, hdata]
  cases hs : s.toList with
  | nil =>
    simp [beforeSlash, trimJs, parseCleaned_nil]
  | cons c cs =>
    have h' : '/' ∉ c :: cs := hs ▸ h
    simp only [hs, List.cons_append, List.isEmpty_cons]
    rw [← List.cons_append, beforeSlash_append_slash _ _ h', beforeSlash_no_slash _ h']

/-- C5: parseCurrencyValue applies the fixed per-locale separator rule: for
locale "en" thousands is "," and decimal is "."; for "es" and "pt" thousands
is "." and decimal is ","; so "1.234,56 BRL" parses under "es" (and "pt") to
amount 1234.56 with currency BRL, and "1,234.56 USDT" under "en" to amount
1234.56 with currency USDT. -/
theorem C5_locale_fixed_separators :
    parseCurrencyValue (some "1.234,56 BRL") Language.es = ⟨1234.56, some "BRL"⟩ ∧
    parseCurrencyValue (some "1.234,56 BRL") Language.pt = ⟨1234.56, some "BRL"⟩ ∧
    parseCurrencyValue (some "1,234.56 USDT") Language.en = ⟨1234.56, some "USDT"⟩ := by
  refine ⟨?_, ?_, ?_⟩
  · rw [parseCurrencyValue,
      show parseCurrencyRaw (some "1.234,56 BRL") Language.es
        = (some (false, 123456, 2), some "BRL") from by decide]
    simp [ratOfParts]
    norm_num
  · rw [parseCurrencyValue,
      show parseCurrencyRaw (some "1.234,56 BRL") Language.pt
        = (some (false, 123456, 2), some "BRL") from by decide]
    simp [ratOfParts]
    norm_num
  · rw [parseCurrencyValue,
      show parseCurrencyRaw (some "1,234.56 USDT") Language.en
        = (some (false, 123456, 2), some "USDT") from by decide]
    simp [ratOfParts]
    norm_num

/-- C6: parseCurrencyValue never throws; `undefined`, the empty string, and a
string with no parseable numeric portion such as "abc" all yield amount 0 and
currency null, for every locale. -/
theorem C6_lenient_parsing (language : Language) :
    parseCurrencyValue none language = ⟨0, none⟩ ∧
    parseCurrencyValue (some "") language = ⟨0, none⟩ ∧
    parseCurrencyValue (some "abc") language = ⟨0, none⟩ := by
  cases language <;>
    refine ⟨rfl, rfl, ?_⟩ <;>
    · rw [parseCurrencyValue, show parseCurrencyRaw _ _ = (none, none) from by decide]
      rfl

/-- C7 counterexample: on "500,00/1000,00 BRL" with locale "pt" the currency
code is discarded together with the slash suffix, so the result is not
`{amount: 500, currency: "BRL"}` as the claim states. -/
theorem C7_cex :
    parseCurrencyValue (some "500,00/1000,00 BRL") Language.pt ≠ ⟨500, some "BRL"⟩ := by
  intro h
  have hc : (parseCurrencyRaw (some "500,00/1000,00 BRL") Language.pt).2 = some "BRL" :=
    congrArg ParsedCurrency.currency h
  exact absurd hc (by decide)

/-- C7 amended: parseCurrencyValue discards everything after the first "/"
before parsing — for any slash-free prefix the result equals parsing the
prefix alone — and on "500,00/1000,00 BRL" with locale "pt" it returns
amount 500.00 with currency null, the "BRL" after the slash being discarded
along with the rest. -/
theorem C7_slash_discards_suffix :
    (∀ (s t : String) (language : Language), '/' ∉ s.toList →
      parseCurrencyValue (some (s ++ "/" ++ t)) language = parseCurrencyValue (some s) language) ∧
    parseCurrencyValue (some "500,00/1000,00 BRL") Language.pt = ⟨500, none⟩ := by
  constructor
  · intro s t language h
    rw [parseCurrencyValue, parseCurrencyValue, parseRaw_slash_prefix s t language h]
  · rw [parseCurrencyValue, show parseCurrencyRaw _ _ = (some (false, 50000, 2), none) from by decide]
    simp [ratOfParts]
    norm_num

/-- C8 counterexample: aggregation over the empty record list yields `null`
(`none`), not a zeroed `OrderTotals` value. -/
theorem C8_cex : totals [] Language.en = none := by decide

/-- C8 amended: for every locale, the `totals` memo returns `null` (`none`)
for an empty record list — the zeroed-totals value the claim describes is
never produced; callers receive an absent result instead. -/
theorem C8_empty_returns_null (language : Language) : totals [] language = none := by
  cases language <;> decide

/-! ## Lemmas about the split generation -/

theorem sum_set_int (l : List ℤ) (n : ℕ) (hn : n < l.length) (a : ℤ) :
    (l.set n a).sum = l.sum - l[n] + a := by
  obtain ⟨l₁, l₂, hd, -, hs⟩ := @List.exists_of_set ℤ n a l hn
  have h1 : l.sum = l₁.sum + (l[n] + l₂.sum) := by
    conv_lhs => rw [hd]
    simp [List.sum_append]
  rw [hs, h1]
  simp [List.sum_append]
  ring

theorem getD_eq_getElem_int (l : List ℤ) (n : ℕ) (d : ℤ) (hn : n < l.length) :
    l.getD n d = l[n] := by
  simp [List.getD_eq_getElem?_getD, List.getElem?_eq_getElem hn]

theorem getD_set_eq (l : List ℤ) (n : ℕ) (a d : ℤ) (hn : n < l.length) :
    (l.set n a).getD n d = a := by
  have h' : n < (l.set n a).length := by simpa using hn
  rw [getD_eq_getElem_int _ _ _ h']
  exact List.getElem_set_self h'

theorem getD_set_ne (l : List ℤ) (m n : ℕ) (a d : ℤ) (h : m ≠ n) :
    (l.set m a).getD n d = l.getD n d := by
  simp [List.getD_eq_getElem?_getD, List.getElem?_set_ne h]

theorem findSlack_bounds : ∀ (l : List ℤ) (i : ℕ), findSlack l = some i → 1 ≤ i ∧ i < l.length
  | [], i, h => by simp [findSlack] at h
  | [_], i, h => by simp [findSlack] at h
  | a :: b :: t, i, h => by
    simp only [findSlack] at h
    split at h
    · cases h
      refine ⟨le_refl 1, ?_⟩
      simp
    · cases hf : findSlack (b :: t) with
      | none => rw [hf] at h; simp at h
      | some j =>
        rw [hf] at h
        simp only [Option.map_some'] at h
        obtain ⟨h1, h2⟩ := findSlack_bounds (b :: t) j hf
        cases h
        simp only [List.length_cons] at h2 ⊢
        omega

theorem fixOnce_sum (v : List ℤ) : (fixOnce v).sum = v.sum := by
  have hperm := List.perm_insertionSort (· ≤ ·) v
  simp only [fixOnce]
  cases hf : findSlack (List.insertionSort (· ≤ ·) v) with
  | none => exact hperm.sum_eq
  | some i =>
    set s := List.insertionSort (· ≤ ·) v with hs
    obtain ⟨hi1, hi2⟩ := findSlack_bounds s i hf
    set s1 := s.set i (s.getD i 0 + 1) with hs1
    have hlen1 : s1.length = s.length := by rw [hs1, List.length_set]
    have hm : s.length - 1 < s1.length := by omega
    have e1 : s1.sum = s.sum + 1 := by
      rw [hs1, getD_eq_getElem_int s i 0 hi2, sum_set_int s i hi2]
      ring
    have e2 : (s1.set (s.length - 1) (s1.getD (s.length - 1) 0 - 1)).sum = s1.sum - 1 := by
      rw [getD_eq_getElem_int s1 (s.length - 1) 0 hm, sum_set_int s1 (s.length - 1) hm]
      ring
    rw [e2, e1, hperm.sum_eq]
    ring

theorem fixOnce_length (v : List ℤ) : (fixOnce v).length = v.length := by
  have hperm := List.perm_insertionSort (· ≤ ·) v
  simp only [fixOnce]
  cases hf : findSlack (List.insertionSort (· ≤ ·) v) with
  | none => exact hperm.length_eq
  | some i => simp [List.length_set, hperm.length_eq]

theorem sum_nonpos_of_all (l : List ℤ) (h : ∀ x ∈ l, x ≤ 0) : l.sum ≤ 0 := by
  induction l with
  | nil => simp
  | cons a t ih =>
    simp only [List.sum_cons]
    have h1 := h a (by simp)
    have h2 := ih fun x hx => h x (by simp [hx])
    omega

theorem fixOnce_nonneg (v : List ℤ) (hpos : 0 < v.sum) (h0 : ∀ x ∈ v, 0 ≤ x) :
    ∀ x ∈ fixOnce v, 0 ≤ x := by
  have hperm := List.perm_insertionSort (· ≤ ·) v
  have hsort : List.Sorted (· ≤ ·) (List.insertionSort (· ≤ ·) v) :=
    List.sorted_insertionSort (· ≤ ·) v
  simp only [fixOnce]
  cases hf : findSlack (List.insertionSort (· ≤ ·) v) with
  | none => exact fun x hx => h0 x (hperm.mem_iff.mp hx)
  | some i =>
    set s := List.insertionSort (· ≤ ·) v with hs
    obtain ⟨hi1, hi2⟩ := findSlack_bounds s i hf
    have hmem : ∀ x ∈ s, 0 ≤ x := fun x hx => h0 x (hperm.mem_iff.mp hx)
    have hssum : s.sum = v.sum := hperm.sum_eq
    set s1 := s.set i (s.getD i 0 + 1) with hs1
    have hlen1 : s1.length = s.length := by rw [hs1, List.length_set]
    have hm : s.length - 1 < s1.length := by omega
    have h1mem : ∀ x ∈ s1, 0 ≤ x := by
      intro x hx
      rcases List.mem_or_eq_of_mem_set hx with hx' | rfl
      · exact hmem x hx'
      · have hsi := hmem _ (List.getElem_mem hi2)
        rw [getD_eq_getElem_int s i 0 hi2]
        omega
    have hex : ∃ k, ∃ hk : k < s.length, 1 ≤ s[k] := by
      by_contra hc
      push_neg at hc
      have hall : ∀ x ∈ s, x ≤ 0 := by
        intro x hx
        obtain ⟨k, hk, rfl⟩ := List.mem_iff_getElem.mp hx
        have := hc k hk
        omega
      have := sum_nonpos_of_all s hall
      omega
    have hmax1 : 1 ≤ s1.getD (s.length - 1) 0 := by
      by_cases hie : i = s.length - 1
      · rw [hs1, ← hie, getD_set_eq s i _ 0 hi2, getD_eq_getElem_int s i 0 hi2]
        have := hmem _ (List.getElem_mem hi2)
        omega
      · have hm' : s.length - 1 < s.length := by omega
        rw [hs1, getD_set_ne s i (s.length - 1) _ 0 hie,
          getD_eq_getElem_int s (s.length - 1) 0 hm']
        obtain ⟨k, hk, h1k⟩ := hex
        have hkle : k ≤ s.length - 1 := by omega
        have hrel : s[k] ≤ s[s.length - 1] := by
          have := hsort.rel_get_of_le (a := ⟨k, hk⟩) (b := ⟨s.length - 1, hm'⟩)
            (Fin.mk_le_mk.mpr hkle)
          simpa using this
        omega
    intro x hx
    rcases List.mem_or_eq_of_mem_set hx with hx' | rfl
    · exact h1mem x hx'
    · rw [← hs1]
      omega

theorem fixLoop_sum (k : ℕ) (v : List ℤ) : (fixLoop k v).sum = v.sum := by
  induction k generalizing v with
  | zero => rfl
  | succ k ih =>
    simp only [fixLoop]
    split
    · rfl
    · rw [ih (fixOnce v), fixOnce_sum]

theorem fixLoop_length (k : ℕ) (v : List ℤ) : (fixLoop k v).length = v.length := by
  induction k generalizing v with
  | zero => rfl
  | succ k ih =>
    simp only [fixLoop]
    split
    · rfl
    · rw [ih (fixOnce v), fixOnce_length]

theorem fixLoop_nonneg (k : ℕ) (v : List ℤ) (hpos : 0 < v.sum) (h0 : ∀ x ∈ v, 0 ≤ x) :
    ∀ x ∈ fixLoop k v, 0 ≤ x := by
  induction k generalizing v with
  | zero => exact h0
  | succ k ih =>
    simp only [fixLoop]
    split
    · exact h0
    · exact ih (fixOnce v) (by rw [fixOnce_sum]; exact hpos) (fixOnce_nonneg v hpos h0)

theorem nParts_pos (total maxPix : ℕ) (ht : 0 < total) (hm : 0 < maxPix) :
    1 ≤ nParts total maxPix := by
  unfold nParts
  rw [Nat.one_le_div_iff hm]
  omega

theorem initialValues_length (total n : ℕ) (hn : 0 < n) : (initialValues total n).length = n := by
  unfold initialValues
  have h1 : total % n < n := Nat.mod_lt total hn
  simp only [List.length_append, List.length_replicate]
  omega

theorem initialValues_sum (total n : ℕ) (hn : 0 < n) : (initialValues total n).sum = total := by
  unfold initialValues
  rw [List.sum_append, List.sum_replicate, List.sum_replicate]
  have h1 : total % n < n := Nat.mod_lt total hn
  have h2 := Nat.div_add_mod total n
  have h2' : (n : ℤ) * ((total / n : ℕ) : ℤ) + ((total % n : ℕ) : ℤ) = (total : ℤ) := by
    exact_mod_cast h2
  simp only [nsmul_eq_mul]
  rw [Nat.cast_sub h1.le]
  linear_combination h2'

theorem initialValues_nonneg (total n : ℕ) : ∀ x ∈ initialValues total n, 0 ≤ x := by
  intro x hx
  unfold initialValues at hx
  rcases List.mem_append.mp hx with h | h <;>
    · rw [List.eq_of_mem_replicate h]
      positivity

theorem generateValues_sum (total maxPix : ℕ) (ht : 0 < total) (hm : 0 < maxPix) :
    (generateValues total maxPix).sum = total := by
  unfold generateValues
  have h1 := nParts_pos total maxPix ht hm
  rcases eq_or_lt_of_le h1 with h | h
  · rw [if_neg (by omega), if_pos h.symm]
    simp
  · rw [if_neg (by omega), if_neg (by omega)]
    rw [fixLoop_sum, initialValues_sum total _ (by omega)]

theorem generateValues_length (total maxPix : ℕ) (ht : 0 < total) (hm : 0 < maxPix) :
    (generateValues total maxPix).length = nParts total maxPix := by
  unfold generateValues
  have h1 := nParts_pos total maxPix ht hm
  rcases eq_or_lt_of_le h1 with h | h
  · rw [if_neg (by omega), if_pos h.symm]
    simp [← h]
  · rw [if_neg (by omega), if_neg (by omega)]
    rw [fixLoop_length, initialValues_length total _ (by omega)]

theorem generateValues_nonneg (total maxPix : ℕ) (ht : 0 < total) (hm : 0 < maxPix) :
    ∀ x ∈ generateValues total maxPix, 0 ≤ x := by
  unfold generateValues
  have h1 := nParts_pos total maxPix ht hm
  rcases eq_or_lt_of_le h1 with h | h
  · rw [if_neg (by omega), if_pos h.symm]
    intro x hx
    simp only [List.mem_singleton] at hx
    subst hx
    positivity
  · rw [if_neg (by omega), if_neg (by omega)]
    refine fixLoop_nonneg 1000 _ ?_ (initialValues_nonneg total _)
    rw [initialValues_sum total _ (by omega)]
    exact_mod_cast ht

theorem count_set_eq {α : Type} [DecidableEq α] (l : List α) (n : ℕ) (hn : n < l.length)
    (b x : α) :
    (l.set n b).count x + (if l[n] = x then 1 else 0) = l.count x + (if b = x then 1 else 0) := by
  obtain ⟨l₁, l₂, hd, -, hs⟩ := @List.exists_of_set α n b l hn
  have h1 : l.count x = l₁.count x + ((if l[n] = x then 1 else 0) + l₂.count x) := by
    conv_lhs => rw [hd]
    simp only [List.count_append, List.count_cons, beq_iff_eq]
    split_ifs <;> omega
  have h2 : (l₁ ++ b :: l₂).count x = l₁.count x + ((if b = x then 1 else 0) + l₂.count x) := by
    simp only [List.count_append, List.count_cons, beq_iff_eq]
    split_ifs <;> omega
  rw [hs, h2, h1]
  omega

theorem listSwap_perm {α : Type} [DecidableEq α] (l : List α) (i j : ℕ) :
    List.Perm (listSwap l i j) l := by
  unfold listSwap
  cases hi : l[i]? with
  | none => exact List.Perm.refl l
  | some a =>
    cases hj : l[j]? with
    | none => exact List.Perm.refl l
    | some b =>
      obtain ⟨hi', hia⟩ := List.getElem?_eq_some_iff.mp hi
      obtain ⟨hj', hjb⟩ := List.getElem?_eq_some_iff.mp hj
      show List.Perm ((l.set i b).set j a) l
      rw [List.perm_iff_count]
      intro x
      have hj2 : j < (l.set i b).length := by simpa using hj'
      have h1 := count_set_eq l i hi' b x
      have h2 := count_set_eq (l.set i b) j hj2 a x
      have hval : (l.set i b)[j] = if i = j then b else l[j] :=
        @List.getElem_set α l i j b hj2
      rw [hval] at h2
      by_cases hij : i = j
      · subst hij
        have hab : a = b := by rw [← hia, ← hjb]
        subst hab
        simp only [if_pos rfl] at h2
        rw [hia] at h1
        split_ifs at h1 h2 <;> omega
      · simp only [if_neg hij] at h2
        rw [hia] at h1
        rw [hjb] at h2
        split_ifs at h1 h2 <;> omega

theorem fyAux_perm {α : Type} [DecidableEq α] (rand : List ℕ) (k : ℕ) (v : List α) :
    List.Perm (fyAux rand k v) v := by
  induction k generalizing rand v with
  | zero => exact List.Perm.refl v
  | succ i ih =>
    simp only [fyAux]
    exact (ih rand.tail _).trans (listSwap_perm v (i + 1) _)

theorem splitValues_perm (total maxPix : ℕ) (rand : List ℕ) :
    List.Perm (splitValues total maxPix rand) (generateValues total maxPix) :=
  fyAux_perm rand _ _

/-! ## Claims about the split generation -/

/-- C1: for every total > 0 and maxPerPart > 0 and every stream of random
draws, the value sequence produced by the multi-part generation (even base
split, bounded uniqueness-correction loop, final shuffle) sums exactly to the
requested total. -/
theorem C1_split_sum_eq_total (total maxPix : ℕ) (rand : List ℕ)
    (ht : 0 < total) (hm : 0 < maxPix) :
    (splitValues total maxPix rand).sum = total := by
  rw [(splitValues_perm total maxPix rand).sum_eq]
  exact generateValues_sum total maxPix ht hm

theorem C1_witness : (splitValues 6 2 []).sum = 6 :=
  C1_split_sum_eq_total 6 2 [] (by decide) (by decide)

/-- C2, the code's behaviour at the claim's failing inputs: when the bounded
correction loop exhausts its 1000 passes without reaching distinct values, the
values are returned as they are — no error of any kind is raised.  On the
spec's own example (total 100, maxPerPart 30) the generation returns the value
25 twice, and with total 2, maxPerPart 1 it returns `[1, 1]`. -/
theorem C2_duplicates_silently_returned :
    splitValues 100 30 [] = [25, 26, 25, 24] ∧
    ¬ (splitValues 100 30 []).Nodup ∧
    generateValues 2 1 = [1, 1] := by
  refine ⟨by decide, by decide, by decide⟩

/-- C3 counterexample: for total 3 and maxPerPart 1 the generated sequence
contains the value 0, so not every value is at least 1. -/
theorem C3_cex : ¬ (∀ x ∈ splitValues 3 1 [], (1 : ℤ) ≤ x) := by decide

/-- C3 amended: every value produced by the split generation is at least 0
(not 1: the uniqueness-correction step decrements the current maximum and can
drive a value to 0, as at total 3, maxPerPart 1). -/
theorem C3_values_nonneg (total maxPix : ℕ) (rand : List ℕ)
    (ht : 0 < total) (hm : 0 < maxPix) :
    ∀ x ∈ splitValues total maxPix rand, 0 ≤ x := by
  intro x hx
  exact generateValues_nonneg total maxPix ht hm x
    ((splitValues_perm total maxPix rand).mem_iff.mp hx)

theorem C3_witness : (0 : ℤ) ≤ 3 :=
  C3_values_nonneg 6 2 [] (by decide) (by decide) 3 (by decide)

/-- C4: the number of generated values equals the ceiling of total divided by
maxPerPart, and when that ceiling is 1 the result is the single-element
sequence holding the whole total. -/
theorem C4_split_length (total maxPix : ℕ) (rand : List ℕ)
    (ht : 0 < total) (hm : 0 < maxPix) :
    (splitValues total maxPix rand).length = total ⌈/⌉ maxPix ∧
    (total ⌈/⌉ maxPix = 1 → splitValues total maxPix rand = [(total : ℤ)]) := by
  have hceil : total ⌈/⌉ maxPix = nParts total maxPix := rfl
  constructor
  · rw [(splitValues_perm total maxPix rand).length_eq, hceil]
    exact generateValues_length total maxPix ht hm
  · intro h1
    rw [hceil] at h1
    unfold splitValues
    rw [show generateValues total maxPix = [(total : ℤ)] from by
      unfold generateValues
      rw [if_neg (by omega), if_pos h1]]
    rfl

theorem C4_witness : (splitValues 6 2 []).length = 6 ⌈/⌉ 2 :=
  (C4_split_length 6 2 [] (by decide) (by decide)).1

/-! ## Claim about the order handlers -/

theorem linksTotal_map_preserves_value (itemId : String) (b : Bool)
    (links : List GeneratedItem) :
    linksTotal (links.map fun l => if l.id = itemId then { l with isPaid := b } else l) =
      linksTotal links := by
  induction links with
  | nil => rfl
  | cons x t ih =>
    simp only [linksTotal, List.map_cons, List.sum_cons, List.map_map] at ih ⊢
    split <;> simp [ih]

/-- C10: every handler that changes the set or the values of an order's split
items — the initial save, a value edit, and an item deletion — stores
`totalAmount` equal to the sum of the remaining link values, and the paid
toggle, which does not touch values, leaves `totalAmount` unchanged (and so
preserves the invariant). -/
theorem C10_totalAmount_matches_links :
    (∀ (code ts : String) (links : List GeneratedItem) (o : Order),
        saveOperation code ts links = some o → totalInv o) ∧
    (∀ (itemId : String) (v : ℤ) (o : Order), totalInv (valueChange itemId v o)) ∧
    (∀ (itemId : String) (o o' : Order), deleteItem itemId o = some o' → totalInv o') ∧
    (∀ (itemId : String) (b : Bool) (o : Order),
        (paidChange itemId b o).totalAmount = o.totalAmount ∧
        (totalInv o → totalInv (paidChange itemId b o))) := by
  refine ⟨?_, ?_, ?_, ?_⟩
  · intro code ts links o h
    unfold saveOperation at h
    split at h
    · exact absurd h (by simp)
    · cases h
      rfl
  · intro itemId v o
    rfl
  · intro itemId o o' h
    simp only [deleteItem] at h
    split at h
    · exact absurd h (by simp)
    · cases h
      rfl
  · intro itemId b o
    refine ⟨rfl, ?_⟩
    intro h
    unfold totalInv at h ⊢
    simp only [paidChange]
    rw [linksTotal_map_preserves_value]
    exact h

theorem C10_witness : totalInv
    { id := "PO-1", totalAmount := 5, status := .pendiente, createdAt := "t",
      links := [{ id := "a", value := 5, linkUrl := "", isPaid := false }] } :=
  C10_totalAmount_matches_links.2.2.1 "b"
    { id := "PO-1", totalAmount := 9, status := .pendiente, createdAt := "t",
      links := [{ id := "a", value := 5, linkUrl := "", isPaid := false },
        { id := "b", value := 4, linkUrl := "", isPaid := false }] }
    _ (by decide)

/-! ## Claim about currency extraction -/

theorem space_not_upper {c : Char} (h : isJsSpace c = true) : isUpperAZ c = false := by
  simp only [isJsSpace, Bool.or_eq_true, decide_eq_true_eq] at h
  obtain ((((h | h) | h) | h) | h) | h := h <;> subst h <;> decide

theorem upper_not_space {c : Char} (h : isUpperAZ c = true) : isJsSpace c = false := by
  cases hs : isJsSpace c
  · rfl
  · rw [space_not_upper hs] at h
    cases h

theorem mem_of_head? {l : List Char} {c : Char} (h : l.head? = some c) : c ∈ l := by
  cases l with
  | nil => simp at h
  | cons a t =>
    simp only [List.head?_cons, Option.some.injEq] at h
    subst h
    exact List.mem_cons_self a t

theorem mem_of_getLast? {l : List Char} {c : Char} (h : l.getLast? = some c) : c ∈ l := by
  rw [List.getLast?_eq_head?_reverse] at h
  have := mem_of_head? h
  simpa using this

theorem takeWhile_eq_nil_head {p : Char → Bool} (l : List Char)
    (h : ∀ c, l.head? = some c → p c = false) : l.takeWhile p = [] := by
  cases l with
  | nil => rfl
  | cons a t => exact List.takeWhile_cons_of_neg (by simp [h a rfl])

theorem trimJs_eq_self (l : List Char)
    (h1 : ∀ c, l.head? = some c → isJsSpace c = false)
    (h2 : ∀ c, l.getLast? = some c → isJsSpace c = false) : trimJs l = l := by
  unfold trimJs
  have e1 : l.dropWhile isJsSpace = l := by
    cases l with
    | nil => rfl
    | cons a t => exact List.dropWhile_cons_of_neg (by simp [h1 a rfl])
  rw [e1]
  have e2 : l.reverse.dropWhile isJsSpace = l.reverse := by
    cases hr : l.reverse with
    | nil => rfl
    | cons a t =>
      refine List.dropWhile_cons_of_neg ?_
      have ha : l.getLast? = some a := by
        rw [List.getLast?_eq_head?_reverse, hr]
        rfl
      simp [h2 a ha]
  rw [e2, List.reverse_reverse]

theorem toList_asString_list (l : List Char) : l.asString.toList = l := rfl

theorem matchCurrency_decomp (p w u : List Char)
    (hu : ∀ c ∈ u, isUpperAZ c = true) (hu3 : 3 ≤ u.length)
    (hw : ∀ c ∈ w, isJsSpace c = true)
    (hlastS : ∀ c, p.getLast? = some c → isJsSpace c = false)
    (hlastU : ∀ c, p.getLast? = some c → isUpperAZ c = false)
    (hterm : ∀ c ∈ p, isLineTerm c = false) :
    matchCurrency (p ++ w ++ u) = some (p, some u) := by
  have htw1 : (w.reverse ++ p.reverse).takeWhile isUpperAZ = [] := by
    apply takeWhile_eq_nil_head
    intro c hc
    cases hwr : w.reverse with
    | nil =>
      rw [hwr, List.nil_append] at hc
      exact hlastU c (by rw [List.getLast?_eq_head?_reverse]; exact hc)
    | cons a t =>
      rw [hwr] at hc
      simp only [List.cons_append, List.head?_cons, Option.some.injEq] at hc
      subst hc
      have ha : a ∈ w := by
        have : a ∈ w.reverse := by rw [hwr]; exact List.mem_cons_self a t
        simpa using this
      exact space_not_upper (hw a ha)
  have htw : ((p ++ w ++ u).reverse.takeWhile isUpperAZ).reverse = u := by
    rw [show (p ++ w ++ u).reverse = u.reverse ++ (w.reverse ++ p.reverse) from by simp]
    rw [List.takeWhile_append_of_pos (by intro c hc; exact hu c (by simpa using hc))]
    rw [htw1, List.append_nil, List.reverse_reverse]
  have htake : (p ++ w ++ u).take ((p ++ w ++ u).length - u.length) = p ++ w := by
    rw [show (p ++ w ++ u).length - u.length = (p ++ w).length from by
      simp only [List.length_append]
      omega]
    exact List.take_left' rfl
  have htws : (p ++ w).reverse.takeWhile isJsSpace = w.reverse := by
    rw [show (p ++ w).reverse = w.reverse ++ p.reverse from by simp]
    rw [List.takeWhile_append_of_pos (by intro c hc; exact hw c (by simpa using hc))]
    rw [takeWhile_eq_nil_head p.reverse
      (fun c hc => hlastS c (by rw [List.getLast?_eq_head?_reverse]; exact hc))]
    rw [List.append_nil]
  have htake2 : (p ++ w).take ((p ++ w).length - w.reverse.length) = p := by
    rw [show (p ++ w).length - w.reverse.length = p.length from by
      simp only [List.length_append, List.length_reverse]
      omega]
    exact List.take_left' rfl
  have hany : p.any isLineTerm = false :=
    List.any_eq_false.mpr fun c hc => by simp [hterm c hc]
  simp only [matchCurrency]
  rw [htw, if_pos hu3, htake, htws, htake2, hany]
  simp

theorem parseCleaned_snd_of_match (cleaned : List Char) (language : Language)
    (g1 : List Char) (cur : Option (List Char))
    (h : matchCurrency cleaned = some (g1, cur)) (hne : (trimJs g1).isEmpty = false) :
    (parseCleaned cleaned language).2 = cur.map List.asString := by
  simp only [parseCleaned, h, hne, Bool.false_eq_true, if_false]

theorem parseCleaned_snd_none (cleaned : List Char) (language : Language) (g1 : List Char)
    (h : matchCurrency cleaned = some (g1, none)) :
    (parseCleaned cleaned language).2 = none := by
  simp only [parseCleaned, h]
  split <;> rfl

theorem parseCleaned_snd_empty (cleaned : List Char) (language : Language)
    (g1 : List Char) (cur : Option (List Char))
    (h : matchCurrency cleaned = some (g1, cur)) (he : (trimJs g1).isEmpty = true) :
    (parseCleaned cleaned language).2 = none := by
  simp [parseCleaned, h, he]

theorem parseCleaned_snd_fail (cleaned : List Char) (language : Language)
    (h : matchCurrency cleaned = none) :
    (parseCleaned cleaned language).2 = none := by
  simp [parseCleaned, h]

theorem matchCurrency_short (s : List Char) (h : (s.reverse.takeWhile isUpperAZ).length < 3) :
    matchCurrency s = none ∨ matchCurrency s = some (s, none) := by
  simp only [matchCurrency]
  rw [if_neg (by simp only [List.length_reverse]; omega)]
  cases hany : s.any isLineTerm
  · right
    simp [hany]
  · left
    simp [hany]

theorem currency_of_decomp (p w u : List Char) (language : Language)
    (hu : ∀ c ∈ u, isUpperAZ c = true) (hu3 : 3 ≤ u.length)
    (hw : ∀ c ∈ w, isJsSpace c = true)
    (hp : p ≠ [])
    (hheadS : ∀ c, p.head? = some c → isJsSpace c = false)
    (hlastS : ∀ c, p.getLast? = some c → isJsSpace c = false)
    (hlastU : ∀ c, p.getLast? = some c → isUpperAZ c = false)
    (hterm : ∀ c ∈ p, isLineTerm c = false)
    (hslash : '/' ∉ p) :
    (parseCurrencyValue (some (p ++ w ++ u).asString) language).currency = some u.asString := by
  have hu0 : u ≠ [] := by
    intro e
    rw [e] at hu3
    simp at hu3
  have hToList : ((p ++ w ++ u).asString).toList = p ++ w ++ u := toList_asString_list _
  have hne : (p ++ w ++ u).isEmpty = false := by
    cases hpc : p with
    | nil => exact absurd hpc hp
    | cons a t => simp [hpc]
  have hslash' : '/' ∉ p ++ w ++ u := by
    intro hmem
    rcases List.mem_append.mp hmem with hmem | hmem
    · rcases List.mem_append.mp hmem with hmem | hmem
      · exact hslash hmem
      · exact absurd (hw _ hmem) (by decide)
    · exact absurd (hu _ hmem) (by decide)
  have hbs : beforeSlash (p ++ w ++ u) = p ++ w ++ u := beforeSlash_no_slash _ hslash'
  have htrim : trimJs (p ++ w ++ u) = p ++ w ++ u := by
    apply trimJs_eq_self
    · intro c hc
      cases hpc : p with
      | nil => exact absurd hpc hp
      | cons a t =>
        rw [hpc] at hc
        simp only [List.cons_append, List.head?_cons, Option.some.injEq] at hc
        refine hheadS c ?_
        rw [hpc, List.head?_cons, hc]
    · intro c hc
      rw [List.getLast?_eq_head?_reverse,
        show (p ++ w ++ u).reverse = u.reverse ++ (w.reverse ++ p.reverse) from by simp] at hc
      cases hur : u.reverse with
      | nil => exact absurd (by simpa using hur) hu0
      | cons b t =>
        rw [hur] at hc
        simp only [List.cons_append, List.head?_cons, Option.some.injEq] at hc
        subst hc
        have hcu : b ∈ u := by
          have : b ∈ u.reverse := by rw [hur]; exact List.mem_cons_self b t
          simpa using this
        exact upper_not_space (hu b hcu)
  have htp : trimJs p = p := trimJs_eq_self p hheadS hlastS
  show (parseCurrencyRaw (some (p ++ w ++ u).asString) language).2 = some u.asString
  simp only [parseCurrencyRaw, hToList, hne, Bool.false_eq_true, if_false]
  rw [hbs, htrim]
  rw [parseCleaned_snd_of_match _ language p (some u)
    (matchCurrency_decomp p w u hu hu3 hw hlastS hlastU hterm)
    (by rw [htp]; cases hpc : p with
        | nil => exact absurd hpc hp
        | cons a t => simp)]
  rfl

theorem currency_none_of_short_run (s : String) (language : Language)
    (h : ((trimJs (beforeSlash s.toList)).reverse.takeWhile isUpperAZ).length < 3) :
    (parseCurrencyValue (some s) language).currency = none := by
  show (parseCurrencyRaw (some s) language).2 = none
  simp only [parseCurrencyRaw]
  cases hemp : s.toList.isEmpty
  · simp only [hemp, Bool.false_eq_true, if_false]
    rcases matchCurrency_short (trimJs (beforeSlash s.toList)) h with hmc | hmc
    · rw [parseCleaned_snd_fail _ language hmc]
    · rw [parseCleaned_snd_none _ language _ hmc]
  · simp [hemp]

theorem currency_none_of_only_upper (u : List Char) (language : Language)
    (hu : ∀ c ∈ u, isUpperAZ c = true) :
    (parseCurrencyValue (some u.asString) language).currency = none := by
  show (parseCurrencyRaw (some u.asString) language).2 = none
  simp only [parseCurrencyRaw, toList_asString_list]
  cases hemp : u.isEmpty
  · simp only [hemp, Bool.false_eq_true, if_false]
    have hbs : beforeSlash u = u :=
      beforeSlash_no_slash u fun hmem => absurd (hu _ hmem) (by decide)
    have htrim : trimJs u = u := by
      apply trimJs_eq_self
      · exact fun c hc => upper_not_space (hu c (mem_of_head? hc))
      · exact fun c hc => upper_not_space (hu c (mem_of_getLast? hc))
    rw [hbs, htrim]
    by_cases h3 : 3 ≤ (u.reverse.takeWhile isUpperAZ).length
    · have htwu : u.reverse.takeWhile isUpperAZ = u.reverse :=
        List.takeWhile_eq_self_iff.mpr fun c hc => by simpa using hu c (by simpa using hc)
      have h3' : 3 ≤ u.length := by
        rw [htwu, List.length_reverse] at h3
        exact h3
      have hmc : matchCurrency u = some ([], some u) := by
        simp only [matchCurrency]
        rw [htwu, List.reverse_reverse, if_pos h3']
        simp
      exact parseCleaned_snd_empty u language [] (some u) hmc (by decide)
    · rcases matchCurrency_short u (by omega) with hmc | hmc
      · rw [parseCleaned_snd_fail _ language hmc]
      · rw [parseCleaned_snd_none _ language _ hmc]
  · have hnil : u = [] := by
      cases u with
      | nil => rfl
      | cons a t => simp at hemp
    subst hnil
    rfl

/-- C9 counterexample: the input "BRL" ends in a run of 3 uppercase letters
(with an empty portion before it), yet parseCurrencyValue returns currency
null — the `if (!numberPart)` guard returns `{amount: 0, currency: null}`
when the numeric portion is empty, discarding the matched currency code.  So
the extraction does not hold regardless of whether a numeric portion precedes
the code. -/
theorem C9_cex : (parseCurrencyValue (some "BRL") Language.en).currency = none := by
  show (parseCurrencyRaw (some "BRL") Language.en).2 = none
  decide

/-- C9 amended: for an input that decomposes as a nonempty numeric portion
(trimmed, slash-free, line-terminator-free, not ending in an uppercase letter)
followed by optional whitespace and a trailing run of 3+ uppercase letters,
parseCurrencyValue returns that run as the currency code.  Currency is null
when the maximal trailing uppercase run of the cleaned string is shorter
than 3 — and also when nothing but uppercase letters precedes the run (an
empty numeric portion yields currency null, the counterexample's case). -/
theorem C9_currency_extraction :
    (∀ (p w u : List Char) (language : Language),
        (∀ c ∈ u, isUpperAZ c = true) → 3 ≤ u.length →
        (∀ c ∈ w, isJsSpace c = true) →
        p ≠ [] →
        (∀ c, p.head? = some c → isJsSpace c = false) →
        (∀ c, p.getLast? = some c → isJsSpace c = false) →
        (∀ c, p.getLast? = some c → isUpperAZ c = false) →
        (∀ c ∈ p, isLineTerm c = false) →
        '/' ∉ p →
        (parseCurrencyValue (some (p ++ w ++ u).asString) language).currency =
          some u.asString) ∧
    (∀ (s : String) (language : Language),
        ((trimJs (beforeSlash s.toList)).reverse.takeWhile isUpperAZ).length < 3 →
        (parseCurrencyValue (some s) language).currency = none) ∧
    (∀ (u : List Char) (language : Language), (∀ c ∈ u, isUpperAZ c = true) →
        (parseCurrencyValue (some u.asString) language).currency = none) :=
  ⟨currency_of_decomp, currency_none_of_short_run, currency_none_of_only_upper⟩

end ControlOps
